import Mathlib

/-!
Verification of the caterpillar boundary-tokenisation experiment
(src/experiments/tokenisation.ipynb).

The notebook's `tokenize_new` computes, for an input `text`:

  1. `new_text = u"\x02".join([text[start:end] for start, end in
     sentence_tokenizer.span_tokenize(text)])` — the sentence spans come
     from the external punkt detector, so they are a parameter here
     (`spans`), and the join is `mark_sentences`.
  2. `new_text = paragraph_tokenizer.sub(u"\\g<0>\x03", new_text)` with
     the pattern (a raw string, so the doubled backslashes are the regex
     classes) `\x02\S{0,4}\s*(?:\r?\n)+|\r?\n(?:\r?\n)+` — modelled by
     `paragraph_sub`.
  3. `new_text = frame_tokenizer.sub(u"\\g<0>\x04", new_text)` with the
     pattern `(?:[^\x03\x02]*(?:\x02|(?=\x03)|$)){1,2}[\s\x03]*` —
     modelled by `frame_sub`.
  4. `new_text = re.sub(u"\x02|\x03", "", new_text)` — `remove_markers` —
     followed by `assert "\x02" not in new_text and "\x03" not in new_text`
     and `frames = new_text.split("\x04")` — `splitOnChar`.

The notebook ran under Python 2.7 (kernel metadata), whose `re.sub`
ignores an empty match at the position where the previous replacement
ended; for the frame pattern the only possible empty match is at the end
of the string, so `frame_sub` replaces the empty match only when the
whole input is empty (sub replaces the first match even when empty).
-/

namespace Caterpillar

/-- The sentence-boundary marker byte inserted by `tokenize_new`. -/
def x02 : Char := '\x02'

/-- The paragraph-boundary marker byte inserted by `tokenize_new`. -/
def x03 : Char := '\x03'

/-- The frame-boundary marker byte inserted by `tokenize_new`. -/
def x04 : Char := '\x04'

/-- The character class `\s` of the Python `re` module (ASCII range):
space, tab, newline, carriage return, vertical tab, form feed. -/
def isWsChar (c : Char) : Bool :=
  c == ' ' || c == '\t' || c == '\n' || c == '\r' || c == '\x0b' || c == '\x0c'

/-- A character no stage of the pipeline treats as a marker byte. -/
def notMarker (c : Char) : Bool :=
  !(c == x02 || c == x03 || c == x04)

/-- Python `text[start:end]` for `0 <= start` and `0 <= end` (clamping
beyond the length, empty when `end <= start`), as used on each span
returned by the sentence detector. -/
def extract (text : List Char) (sp : Nat × Nat) : List Char :=
  (text.drop sp.1).take (sp.2 - sp.1)

/-- Python `sep.join(parts)` for a one-character separator. -/
def joinWith (sep : Char) : List (List Char) → List Char
  | [] => []
  | [a] => a
  | a :: b :: rest => a ++ sep :: joinWith sep (b :: rest)

/-- Step 1 of `tokenize_new`: join the detected sentence spans with the
sentence marker `\x02`.  Characters of `text` outside every span do not
appear in the result. -/
def mark_sentences (text : List Char) (spans : List (Nat × Nat)) : List Char :=
  joinWith x02 (spans.map (extract text))

/-- Python `s.split(sep)` for a one-character separator: keeps empty
pieces, and the empty string splits to `[""]`. -/
def splitOnChar (sep : Char) : List Char → List (List Char)
  | [] => [[]]
  | c :: s =>
    if c == sep then [] :: splitOnChar sep s
    else
      match splitOnChar sep s with
      | [] => [[c]]
      | f :: rest => (c :: f) :: rest

/-- Concatenation of a list of lists. -/
def joinAll {α : Type} : List (List α) → List α
  | [] => []
  | a :: rest => a ++ joinAll rest

/-- Occurrences of one character in a list. -/
def countChar (c : Char) (s : List Char) : Nat :=
  (s.filter (fun d => d == c)).length

/-! ### The paragraph-marker pattern

`\x02\S{0,4}\s*(?:\r?\n)+|\r?\n(?:\r?\n)+`, substituted by the whole
match followed by `\x03`.  Matching is modelled directly: a `\r?\n`
unit (greedy `\r?`), a greedy run of such units, `\s*(?:\r?\n)+`
(the greedy `\s*` ends as late as possible while leaving at least one
newline unit, so the combined match ends just after the last `'\n'` of
the maximal whitespace run), and `\S{0,4}` by trying 4, 3, 2, 1, 0
non-whitespace characters in order (greedy with backtracking). -/

/-- One `\r?\n` unit with greedy `\r?`. -/
def nl_unit : List Char → Option (List Char × List Char)
  | '\r' :: '\n' :: s => some (['\r', '\n'], s)
  | '\n' :: s => some (['\n'], s)
  | _ => none

/-- `(?:\r?\n)*`: the greedy maximal run of `\r?\n` units, with fuel
(each unit consumes at least one character, so fuel `s.length` is
always enough). -/
def nlRunF : Nat → List Char → List Char × List Char
  | 0, s => ([], s)
  | f + 1, s =>
    match nl_unit s with
    | some (a, r) =>
      match nlRunF f r with
      | (b, r2) => (a ++ b, r2)
    | none => ([], s)

/-- `(?:\r?\n)*` with canonical fuel. -/
def nl_run (s : List Char) : List Char × List Char :=
  nlRunF s.length s

/-- The second alternative `\r?\n(?:\r?\n)+`: two newline units then the
greedy rest of the run. -/
def para_alt2 (s : List Char) : Option (List Char × List Char) :=
  match nl_unit s with
  | none => none
  | some (a, r) =>
    match nl_unit r with
    | none => none
    | some (b, r2) =>
      match nl_run r2 with
      | (c, r3) => some (a ++ b ++ c, r3)

/-- The prefix of `l` up to and including its last `'\n'`, with the
rest, when `l` contains one. -/
def splitLastNl : List Char → Option (List Char × List Char)
  | [] => none
  | c :: s =>
    match splitLastNl s with
    | some (a, b) => some (c :: a, b)
    | none => if c == '\n' then some ([c], s) else none

/-- `\s*(?:\r?\n)+`: succeeds iff the maximal whitespace run at the
front contains a `'\n'`; greedy backtracking makes the match end just
after the last `'\n'` of that run. -/
def ws_then_newlines (s : List Char) : Option (List Char × List Char) :=
  match splitLastNl (s.takeWhile isWsChar) with
  | none => none
  | some (a, b) => some (a, b ++ s.dropWhile isWsChar)

/-- `\S{i}`: exactly `i` non-whitespace characters. -/
def takeNonWs : Nat → List Char → Option (List Char × List Char)
  | 0, s => some ([], s)
  | _ + 1, [] => none
  | n + 1, c :: s =>
    if isWsChar c then none
    else
      match takeNonWs n s with
      | some (a, r) => some (c :: a, r)
      | none => none

/-- `\S{i}\s*(?:\r?\n)+` for one exact repetition count `i`. -/
def para_alt1_step (i : Nat) (s : List Char) : Option (List Char × List Char) :=
  match takeNonWs i s with
  | none => none
  | some (a, r) =>
    match ws_then_newlines r with
    | none => none
    | some (b, r2) => some (a ++ b, r2)

/-- `\S{0,i}\s*(?:\r?\n)+`: the greedy repetition tries `i` first, then
backtracks down to 0. -/
def para_alt1_try : Nat → List Char → Option (List Char × List Char)
  | 0, s => para_alt1_step 0 s
  | i + 1, s =>
    match para_alt1_step (i + 1) s with
    | some x => some x
    | none => para_alt1_try i s

/-- The first alternative `\x02\S{0,4}\s*(?:\r?\n)+`. -/
def para_alt1 (s : List Char) : Option (List Char × List Char) :=
  match s with
  | [] => none
  | c :: r =>
    if c == x02 then
      match para_alt1_try 4 r with
      | some (m, r2) => some (c :: m, r2)
      | none => none
    else none

/-- A match of the paragraph pattern at the current position: the first
alternative is preferred, as in Python alternation. -/
def paragraph_match (s : List Char) : Option (List Char × List Char) :=
  match para_alt1 s with
  | some x => some x
  | none => para_alt2 s

/-- `paragraph_tokenizer.sub(u"\\g<0>\x03", s)`: scan left to right; a
match is kept and `\x03` appended after it, scanning resumes at its end;
otherwise one character is copied.  The pattern never matches the empty
string (both alternatives need a newline), so fuel `s.length` is always
enough. -/
def paraSubF : Nat → List Char → List Char
  | _, [] => []
  | 0, s => s
  | f + 1, c :: s =>
    match paragraph_match (c :: s) with
    | some (m, r) => m ++ x03 :: paraSubF f r
    | none => c :: paraSubF f s

/-- Step 2 of `tokenize_new`: insert `\x03` after every match of the
paragraph pattern. -/
def paragraph_sub (s : List Char) : List Char :=
  paraSubF s.length s

/-! ### The frame-marker pattern

`(?:[^\x03\x02]*(?:\x02|(?=\x03)|$)){1,2}[\s\x03]*`, substituted by the
whole match followed by `\x04`.

One repetition (`frame_unit`) consumes the maximal run of characters
other than the two markers, then its terminator: a consumed `\x02`, a
zero-width lookahead at `\x03`, or the end of input; the terminator
alternatives only succeed where the run stops, so the unit is
deterministic and always succeeds.  The greedy `{1,2}` therefore always
takes two units (the second may be empty), and the trailing greedy
class `[\s\x03]*` never fails, so the whole pattern matches at every
position, and matches the empty string only at the end of input. -/

/-- `[^\x03\x02]`. -/
def frameContent (c : Char) : Bool :=
  !(c == x02 || c == x03)

/-- `[\s\x03]`. -/
def frameTailClass (c : Char) : Bool :=
  isWsChar c || c == x03

/-- One repetition `[^\x03\x02]*(?:\x02|(?=\x03)|$)`: the consumed
characters and the rest. -/
def frame_unit (s : List Char) : List Char × List Char :=
  match s.dropWhile frameContent with
  | [] => (s.takeWhile frameContent, [])
  | c :: r =>
    if c == x02 then (s.takeWhile frameContent ++ [c], r)
    else (s.takeWhile frameContent, c :: r)

/-- A match of the frame pattern at the current position: two
repetitions then the trailing `[\s\x03]*`. -/
def frame_match (s : List Char) : List Char × List Char :=
  ((frame_unit s).1 ++ (frame_unit (frame_unit s).2).1
      ++ (frame_unit (frame_unit s).2).2.takeWhile frameTailClass,
    (frame_unit (frame_unit s).2).2.dropWhile frameTailClass)

/-- The successive non-empty matches of the frame pattern over `s`,
with fuel (every match on a non-empty rest consumes at least one
character, so fuel `s.length` is always enough). -/
def frameMatchesF : Nat → List Char → List (List Char)
  | _, [] => []
  | 0, _ => []
  | f + 1, c :: s =>
    (frame_match (c :: s)).1 :: frameMatchesF f (frame_match (c :: s)).2

/-- The successive non-empty matches of the frame pattern over `s`. -/
def frame_matches (s : List Char) : List (List Char) :=
  frameMatchesF s.length s

/-- Step 3 of `tokenize_new`: `frame_tokenizer.sub(u"\\g<0>\x04", s)`.
Every position is the start of a match; under Python 2.7 `re.sub` the
final empty match (at end of input) is replaced only when no earlier
match exists, that is only on the empty input. -/
def frame_sub (s : List Char) : List Char :=
  match s with
  | [] => [x04]
  | _ => joinAll ((frame_matches s).map (fun m => m ++ [x04]))

/-- Step 4 of `tokenize_new`: `re.sub(u"\x02|\x03", "", s)`. -/
def remove_markers (s : List Char) : List Char :=
  s.filter (fun c => !(c == x02 || c == x03))

/-- The text on which `tokenize_new` runs its assertion and its final
split. -/
def final_text (text : List Char) (spans : List (Nat × Nat)) : List Char :=
  remove_markers (frame_sub (paragraph_sub (mark_sentences text spans)))

/-- `tokenize_new` of the notebook, parameterised by the spans the
external punkt sentence detector returns for `text`: the list bound to
`frames` by `new_text.split("\x04")`. -/
def tokenize_new (text : List Char) (spans : List (Nat × Nat)) : List (List Char) :=
  splitOnChar x04 (final_text text spans)

/-! ### The naive design `tokenize_old`

Its paragraph and sentence tokenizers are external (the caterpillar
`ParagraphTokenizer` and nltk punkt are not among the repository files),
so it is parameterised by the decomposition into paragraphs, each a list
of sentences; the grouping `" ".join(sentences[i:i+2])` for
`i in xrange(0, len(sentences), 2)` is the notebook's own code. -/

/-- Frames of one paragraph: consecutive pairs of sentences joined by a
space, a final odd sentence alone. -/
def pair_frames : List (List Char) → List (List Char)
  | [] => []
  | [s] => [s]
  | s1 :: s2 :: rest => (s1 ++ ' ' :: s2) :: pair_frames rest

/-- `tokenize_old` of the notebook: frames accumulated over all
paragraphs. -/
def tokenize_old (paragraphs : List (List (List Char))) : List (List Char) :=
  joinAll (paragraphs.map pair_frames)

/-- A sentence as the detector should produce it: no marker byte, no
newline byte, and at least one non-whitespace character. -/
def good_sentence (s : List Char) : Bool :=
  s.all (fun c => notMarker c && !(c == '\n')) && s.any (fun c => !isWsChar c)

/-- Modelled from the spec: the inverse document frequency of the
TF-IDF scoring, `idf(term) = log(total_documents /
document_frequency(term))` with a floor applied when
`document_frequency` equals `total_documents` (the query evaluator is
not among the repository's files; this follows the wording of section
4.5 of the specification). -/
noncomputable def idf (total df : Nat) : Real :=
  if df = total then 0 else Real.log ((total : Real) / (df : Real))

/-! ### Generic list lemmas -/

theorem joinAll_append {α : Type} (a b : List (List α)) :
    joinAll (a ++ b) = joinAll a ++ joinAll b := by
  induction a with
  | nil => rfl
  | cons x xs ih => simp [joinAll, ih]

theorem countChar_append (c : Char) (a b : List Char) :
    countChar c (a ++ b) = countChar c a + countChar c b := by
  simp [countChar, List.filter_append]

theorem countChar_cons (c d : Char) (s : List Char) :
    countChar c (d :: s) = (if d == c then 1 else 0) + countChar c s := by
  simp only [countChar, List.filter_cons]
  split <;> simp [Nat.add_comm]

theorem countChar_nil (c : Char) : countChar c [] = 0 := rfl

theorem countChar_eq_zero (c : Char) (s : List Char)
    (h : ∀ d ∈ s, (d == c) = false) : countChar c s = 0 := by
  induction s with
  | nil => rfl
  | cons d s ih =>
    rw [countChar_cons, h d (by simp), ih (fun e he => h e (by simp [he]))]
    simp

theorem takeWhile_append_all (p : Char → Bool) (a b : List Char)
    (h : ∀ c ∈ a, p c = true) :
    (a ++ b).takeWhile p = a ++ b.takeWhile p := by
  induction a with
  | nil => rfl
  | cons x xs ih =>
    have hx : p x = true := h x (by simp)
    simp only [List.cons_append, List.takeWhile_cons, hx, if_true]
    rw [ih (fun c hc => h c (by simp [hc]))]

theorem dropWhile_append_all (p : Char → Bool) (a b : List Char)
    (h : ∀ c ∈ a, p c = true) :
    (a ++ b).dropWhile p = b.dropWhile p := by
  induction a with
  | nil => rfl
  | cons x xs ih =>
    have hx : p x = true := h x (by simp)
    simp only [List.cons_append, List.dropWhile_cons, hx, if_true]
    exact ih (fun c hc => h c (by simp [hc]))

theorem takeWhile_append_stop (p : Char → Bool) (a b : List Char)
    (h : ∃ c ∈ a, p c = false) :
    (a ++ b).takeWhile p = a.takeWhile p := by
  induction a with
  | nil => rcases h with ⟨c, hc, _⟩; cases hc
  | cons x xs ih =>
    cases hx : p x with
    | true =>
      have h2 : ∃ c ∈ xs, p c = false := by
        rcases h with ⟨c, hc, hpc⟩
        rcases List.mem_cons.mp hc with rfl | hc2
        · rw [hx] at hpc; cases hpc
        · exact ⟨c, hc2, hpc⟩
      simp only [List.cons_append, List.takeWhile_cons, hx, if_true]
      rw [ih h2]
    | false => simp [List.takeWhile_cons, hx]

theorem dropWhile_append_stop (p : Char → Bool) (a b : List Char)
    (h : ∃ c ∈ a, p c = false) :
    (a ++ b).dropWhile p = a.dropWhile p ++ b := by
  induction a with
  | nil => rcases h with ⟨c, hc, _⟩; cases hc
  | cons x xs ih =>
    cases hx : p x with
    | true =>
      have h2 : ∃ c ∈ xs, p c = false := by
        rcases h with ⟨c, hc, hpc⟩
        rcases List.mem_cons.mp hc with rfl | hc2
        · rw [hx] at hpc; cases hpc
        · exact ⟨c, hc2, hpc⟩
      simp only [List.cons_append, List.dropWhile_cons, hx, if_true]
      exact ih h2
    | false => simp [List.dropWhile_cons, hx]

theorem dropWhile_eq_cons_of_exists (p : Char → Bool) (a : List Char)
    (h : ∃ c ∈ a, p c = false) :
    ∃ c r, a.dropWhile p = c :: r ∧ p c = false := by
  induction a with
  | nil => rcases h with ⟨c, hc, _⟩; cases hc
  | cons x xs ih =>
    cases hx : p x with
    | true =>
      have h2 : ∃ c ∈ xs, p c = false := by
        rcases h with ⟨c, hc, hpc⟩
        rcases List.mem_cons.mp hc with rfl | hc2
        · rw [hx] at hpc; cases hpc
        · exact ⟨c, hc2, hpc⟩
      rcases ih h2 with ⟨c, r, hr, hpc⟩
      exact ⟨c, r, by simp [List.dropWhile_cons, hx, hr], hpc⟩
    | false => exact ⟨x, xs, by simp [List.dropWhile_cons, hx], hx⟩

theorem mem_of_mem_takeWhile (p : Char → Bool) {c : Char} {a : List Char}
    (h : c ∈ a.takeWhile p) : c ∈ a := by
  induction a with
  | nil => cases h
  | cons x xs ih =>
    rw [List.takeWhile_cons] at h
    split at h
    · rcases List.mem_cons.mp h with rfl | h2
      · simp
      · exact List.mem_cons_of_mem x (ih h2)
    · cases h

theorem mem_of_mem_dropWhile (p : Char → Bool) {c : Char} {a : List Char}
    (h : c ∈ a.dropWhile p) : c ∈ a := by
  induction a with
  | nil => cases h
  | cons x xs ih =>
    rw [List.dropWhile_cons] at h
    split at h
    · exact List.mem_cons_of_mem x (ih h)
    · exact h

theorem all_takeWhile_eq_self (p : Char → Bool) (a : List Char)
    (h : ∀ c ∈ a, p c = true) :
    a.takeWhile p = a ∧ a.dropWhile p = [] := by
  induction a with
  | nil => exact ⟨rfl, rfl⟩
  | cons x xs ih =>
    have hx : p x = true := h x (by simp)
    have h2 := ih (fun c hc => h c (by simp [hc]))
    rw [List.takeWhile_cons, List.dropWhile_cons]
    simp [hx, h2.1, h2.2]

/-! ### Lemmas on `splitOnChar` -/

theorem splitOnChar_ne_nil (sep : Char) (s : List Char) :
    splitOnChar sep s ≠ [] := by
  cases s with
  | nil => simp [splitOnChar]
  | cons c s =>
    cases h : (c == sep) with
    | true => simp [splitOnChar, h]
    | false =>
      cases h2 : splitOnChar sep s with
      | nil => simp [splitOnChar, h, h2]
      | cons f rest => simp [splitOnChar, h, h2]

theorem joinAll_splitOnChar (sep : Char) (s : List Char) :
    joinAll (splitOnChar sep s) = s.filter (fun c => !(c == sep)) := by
  induction s with
  | nil => rfl
  | cons c s ih =>
    cases h : (c == sep) with
    | true => simp [splitOnChar, h, joinAll, ih, List.filter_cons]
    | false =>
      cases h2 : splitOnChar sep s with
      | nil => exact absurd h2 (splitOnChar_ne_nil sep s)
      | cons f rest =>
        rw [h2] at ih
        simp [splitOnChar, h, h2, joinAll, List.filter_cons, ← ih]

theorem length_splitOnChar (sep : Char) (s : List Char) :
    (splitOnChar sep s).length = countChar sep s + 1 := by
  induction s with
  | nil => rfl
  | cons c s ih =>
    cases h : (c == sep) with
    | true => simp [splitOnChar, h, countChar_cons, ih, Nat.add_comm]
    | false =>
      cases h2 : splitOnChar sep s with
      | nil => exact absurd h2 (splitOnChar_ne_nil sep s)
      | cons f rest =>
        rw [h2] at ih
        simp [splitOnChar, h, h2, countChar_cons]
        simpa using ih

theorem splitOnChar_concat (sep : Char) (t : List Char) :
    splitOnChar sep (t ++ [sep]) = splitOnChar sep t ++ [[]] := by
  induction t with
  | nil => simp [splitOnChar]
  | cons c t ih =>
    cases h : (c == sep) with
    | true => simp [splitOnChar, h, ih]
    | false =>
      cases h2 : splitOnChar sep t with
      | nil => exact absurd h2 (splitOnChar_ne_nil sep t)
      | cons f rest =>
        rw [h2] at ih
        simp [splitOnChar, h, ih, h2]

theorem mem_of_mem_splitOnChar (sep : Char) (s : List Char) :
    ∀ m ∈ splitOnChar sep s, ∀ c ∈ m, c ∈ s := by
  induction s with
  | nil =>
    intro m hm c hc
    simp [splitOnChar] at hm
    subst hm; cases hc
  | cons d s ih =>
    intro m hm c hc
    cases h : (d == sep) with
    | true =>
      rw [splitOnChar, if_pos h] at hm
      rcases List.mem_cons.mp hm with rfl | hm2
      · cases hc
      · exact List.mem_cons_of_mem d (ih m hm2 c hc)
    | false =>
      rw [splitOnChar, if_neg (by simp [h])] at hm
      cases h2 : splitOnChar sep s with
      | nil => exact absurd h2 (splitOnChar_ne_nil sep s)
      | cons f rest =>
        rw [h2] at hm
        rcases List.mem_cons.mp hm with rfl | hm2
        · rcases List.mem_cons.mp hc with rfl | hc2
          · simp
          · exact List.mem_cons_of_mem d (ih f (by simp [h2]) c hc2)
        · exact List.mem_cons_of_mem d (ih m (by simp [h2, hm2]) c hc)

/-! ### Soundness of the paragraph-pattern matcher: a match is a
non-empty prefix containing a newline, and the rest is the suffix. -/

theorem nl_unit_sound {s a r : List Char} (h : nl_unit s = some (a, r)) :
    a ++ r = s ∧ a ≠ [] ∧ '\n' ∈ s := by
  unfold nl_unit at h
  split at h
  · injection h with h
    injection h with h1 h2
    subst h1; subst h2
    exact ⟨rfl, by simp, by simp⟩
  · injection h with h
    injection h with h1 h2
    subst h1; subst h2
    exact ⟨rfl, by simp, by simp⟩
  · cases h

theorem nlRunF_sound (f : Nat) : ∀ s : List Char,
    (nlRunF f s).1 ++ (nlRunF f s).2 = s := by
  induction f with
  | zero => intro s; rfl
  | succ f ih =>
    intro s
    rw [nlRunF]
    cases h : nl_unit s with
    | none => rfl
    | some x =>
      rcases x with ⟨a, r⟩
      rcases nl_unit_sound h with ⟨har, -, -⟩
      cases h2 : nlRunF f r with
      | mk b r2 =>
        have := ih r
        rw [h2] at this
        simp only [h2]
        simp only [List.append_assoc]
        rw [this, har]

theorem nl_run_sound (s : List Char) : (nl_run s).1 ++ (nl_run s).2 = s :=
  nlRunF_sound s.length s

theorem para_alt2_sound {s m r : List Char} (h : para_alt2 s = some (m, r)) :
    m ++ r = s ∧ m ≠ [] ∧ '\n' ∈ s := by
  unfold para_alt2 at h
  split at h
  · cases h
  · rename_i a r1 h1
    split at h
    · cases h
    · rename_i b r2 h2
      split at h
      rename_i c r3 h3
      injection h with h
      injection h with hm hr
      subst hm; subst hr
      rcases nl_unit_sound h1 with ⟨ha, hane, hnl⟩
      rcases nl_unit_sound h2 with ⟨hb, -, -⟩
      have hc := nl_run_sound r2
      rw [h3] at hc
      constructor
      · simp only [List.append_assoc]
        rw [hc, hb, ha]
      · exact ⟨by simp [hane], hnl⟩

theorem splitLastNl_sound : ∀ {s a b : List Char},
    splitLastNl s = some (a, b) → a ++ b = s ∧ a ≠ [] ∧ '\n' ∈ s := by
  intro s
  induction s with
  | nil => intro a b h; cases h
  | cons c s ih =>
    intro a b h
    unfold splitLastNl at h
    split at h
    · rename_i a2 b2 h2
      injection h with h
      injection h with ha hb
      subst ha; subst hb
      rcases ih h2 with ⟨hab, -, hnl⟩
      exact ⟨by simp [hab], by simp, by simp [hnl]⟩
    · rename_i h2
      split at h
      · injection h with h
        injection h with ha hb
        subst ha; subst hb
        rename_i hc
        have hc2 : c = '\n' := by simpa using hc
        exact ⟨rfl, by simp, by simp [hc2]⟩
      · cases h

theorem ws_then_newlines_sound {s m r : List Char}
    (h : ws_then_newlines s = some (m, r)) :
    m ++ r = s ∧ m ≠ [] ∧ '\n' ∈ s := by
  unfold ws_then_newlines at h
  split at h
  · cases h
  · rename_i a b h2
    injection h with h
    injection h with hm hr
    subst hm; subst hr
    rcases splitLastNl_sound h2 with ⟨hab, hane, hnl⟩
    refine ⟨?_, hane, ?_⟩
    · rw [← List.append_assoc, hab, List.takeWhile_append_dropWhile]
    · exact mem_of_mem_takeWhile isWsChar hnl

theorem takeNonWs_sound : ∀ (n : Nat) {s a r : List Char},
    takeNonWs n s = some (a, r) → a ++ r = s := by
  intro n
  induction n with
  | zero =>
    intro s a r h
    injection h with h
    injection h with ha hr
    subst ha; subst hr; rfl
  | succ n ih =>
    intro s a r h
    cases s with
    | nil => cases h
    | cons c s =>
      unfold takeNonWs at h
      split at h
      · cases h
      · split at h
        · rename_i a2 r2 h2
          injection h with h
          injection h with ha hr
          subst ha; subst hr
          simp [ih h2]
        · cases h

theorem para_alt1_step_sound {i : Nat} {s m r : List Char}
    (h : para_alt1_step i s = some (m, r)) :
    m ++ r = s ∧ m ≠ [] ∧ '\n' ∈ s := by
  unfold para_alt1_step at h
  split at h
  · cases h
  · rename_i a r1 h1
    split at h
    · cases h
    · rename_i b r2 h2
      injection h with h
      injection h with hm hr
      subst hm; subst hr
      rcases ws_then_newlines_sound h2 with ⟨hb, hbne, hnl⟩
      have ha := takeNonWs_sound i h1
      constructor
      · rw [List.append_assoc, hb, ha]
      constructor
      · simp [hbne]
      · rw [← ha]
        exact List.mem_append_right a hnl

theorem para_alt1_try_sound : ∀ (i : Nat) {s m r : List Char},
    para_alt1_try i s = some (m, r) → m ++ r = s ∧ m ≠ [] ∧ '\n' ∈ s := by
  intro i
  induction i with
  | zero => intro s m r h; exact para_alt1_step_sound h
  | succ i ih =>
    intro s m r h
    unfold para_alt1_try at h
    split at h
    · rename_i x h2
      injection h with h
      subst h
      exact para_alt1_step_sound h2
    · exact ih h

theorem para_alt1_sound {s m r : List Char} (h : para_alt1 s = some (m, r)) :
    m ++ r = s ∧ m ≠ [] ∧ '\n' ∈ s := by
  cases s with
  | nil => cases h
  | cons c s2 =>
    simp only [para_alt1] at h
    split at h
    · split at h
      · rename_i m2 r2 h2
        injection h with h
        injection h with hm hr
        subst hm; subst hr
        rcases para_alt1_try_sound 4 h2 with ⟨hm2, -, hnl⟩
        exact ⟨by simp [hm2], by simp, by simp [hnl]⟩
      · cases h
    · cases h

theorem paragraph_match_sound {s m r : List Char}
    (h : paragraph_match s = some (m, r)) :
    m ++ r = s ∧ m ≠ [] ∧ '\n' ∈ s := by
  unfold paragraph_match at h
  split at h
  · rename_i x h1
    injection h with h
    subst h
    exact para_alt1_sound h1
  · exact para_alt2_sound h

theorem paragraph_match_none_of_no_nl {s : List Char} (h : '\n' ∉ s) :
    paragraph_match s = none := by
  cases h2 : paragraph_match s with
  | none => rfl
  | some x =>
    rcases x with ⟨m, r⟩
    exact absurd (paragraph_match_sound h2).2.2 h

/-! ### Properties of `paragraph_sub` -/

theorem paraSubF_id_of_no_nl : ∀ (f : Nat) (s : List Char), '\n' ∉ s →
    paraSubF f s = s := by
  intro f
  induction f with
  | zero => intro s _; cases s <;> rfl
  | succ f ih =>
    intro s hnl
    cases s with
    | nil => rfl
    | cons c s2 =>
      rw [paraSubF, paragraph_match_none_of_no_nl hnl]
      rw [ih s2 (fun h2 => hnl (List.mem_cons_of_mem c h2))]

/-- On text without a newline the paragraph substitution changes
nothing (both regex alternatives need at least one newline). -/
theorem paragraph_sub_id_of_no_nl {s : List Char} (h : '\n' ∉ s) :
    paragraph_sub s = s :=
  paraSubF_id_of_no_nl s.length s h

theorem paraSubF_filter (p : Char → Bool) (hp : p x03 = false) :
    ∀ (f : Nat) (s : List Char), s.length ≤ f →
      (paraSubF f s).filter p = s.filter p := by
  intro f
  induction f with
  | zero =>
    intro s hs
    have : s = [] := List.eq_nil_of_length_eq_zero (Nat.le_zero.mp hs)
    subst this; rfl
  | succ f ih =>
    intro s hs
    cases s with
    | nil => rfl
    | cons c s2 =>
      rw [paraSubF]
      cases hm : paragraph_match (c :: s2) with
      | some x =>
        rcases x with ⟨m, r⟩
        rcases paragraph_match_sound hm with ⟨hmr, hmne, -⟩
        have hr : r.length ≤ f := by
          have := congrArg List.length hmr
          simp only [List.length_append, List.length_cons] at this ⊢
          have hm1 : 1 ≤ m.length := by
            cases m with
            | nil => exact absurd rfl hmne
            | cons a b => simp
          simp only [List.length_cons] at hs
          omega
        rw [List.filter_append, List.filter_cons, hp]
        simp only [Bool.false_eq_true, if_false]
        rw [ih r hr, ← List.filter_append, hmr]
      | none =>
        have hs2 : s2.length ≤ f := by
          simp only [List.length_cons] at hs
          omega
        rw [List.filter_cons, List.filter_cons]
        rw [ih s2 hs2]

/-- The paragraph substitution only inserts `\x03` markers: filtering
with any predicate that drops `\x03` ignores it. -/
theorem paragraph_sub_filter (p : Char → Bool) (hp : p x03 = false)
    (s : List Char) : (paragraph_sub s).filter p = s.filter p :=
  paraSubF_filter p hp s.length s (Nat.le_refl _)

/-! ### Properties of the frame-pattern matcher -/

/-! ### Properties of the frame-pattern matcher -/

theorem frame_unit_of_drop_nil {s : List Char}
    (h : s.dropWhile frameContent = []) :
    frame_unit s = (s.takeWhile frameContent, []) := by
  unfold frame_unit
  rw [h]

theorem frame_unit_of_drop_x02 {s r : List Char}
    (h : s.dropWhile frameContent = x02 :: r) :
    frame_unit s = (s.takeWhile frameContent ++ [x02], r) := by
  unfold frame_unit
  rw [h]
  simp

theorem frame_unit_of_drop_x03 {s r : List Char}
    (h : s.dropWhile frameContent = x03 :: r) :
    frame_unit s = (s.takeWhile frameContent, x03 :: r) := by
  unfold frame_unit
  rw [h]
  simp [x02, x03]

theorem dropWhile_head_not (p : Char → Bool) : ∀ (s : List Char) {c : Char}
    {r : List Char}, s.dropWhile p = c :: r → p c = false := by
  intro s
  induction s with
  | nil => intro c r h; cases h
  | cons d s ih =>
    intro c r h
    rw [List.dropWhile_cons] at h
    split at h
    · exact ih h
    · rename_i hd
      injection h with h1 h2
      subst h1
      simpa using hd

theorem drop_frameContent_head (s : List Char) :
    s.dropWhile frameContent = [] ∨
    (∃ r, s.dropWhile frameContent = x02 :: r) ∨
    (∃ r, s.dropWhile frameContent = x03 :: r) := by
  cases h : s.dropWhile frameContent with
  | nil => exact Or.inl rfl
  | cons c r =>
    have hc : frameContent c = false := dropWhile_head_not frameContent s h
    unfold frameContent at hc
    simp only [Bool.not_eq_false', Bool.or_eq_true, beq_iff_eq] at hc
    rcases hc with h2 | h2
    · subst h2
      exact Or.inr (Or.inl ⟨r, rfl⟩)
    · subst h2
      exact Or.inr (Or.inr ⟨r, rfl⟩)

theorem frame_unit_append (s : List Char) :
    (frame_unit s).1 ++ (frame_unit s).2 = s := by
  rcases drop_frameContent_head s with h | ⟨r, h⟩ | ⟨r, h⟩
  · rw [frame_unit_of_drop_nil h]
    have := s.takeWhile_append_dropWhile frameContent
    rw [h, List.append_nil] at this
    simpa using this
  · rw [frame_unit_of_drop_x02 h]
    have := s.takeWhile_append_dropWhile frameContent
    rw [h] at this
    simpa using this
  · rw [frame_unit_of_drop_x03 h]
    have := s.takeWhile_append_dropWhile frameContent
    rw [h] at this
    simpa using this

theorem frame_unit_no_x03 (s : List Char) : ∀ c ∈ (frame_unit s).1, c ≠ x03 := by
  have htw : ∀ c ∈ s.takeWhile frameContent, c ≠ x03 := by
    intro c hc
    have := List.mem_takeWhile_imp hc
    unfold frameContent at this
    intro hx
    subst hx
    simp at this
  rcases drop_frameContent_head s with h | ⟨r, h⟩ | ⟨r, h⟩
  · rw [frame_unit_of_drop_nil h]; exact htw
  · rw [frame_unit_of_drop_x02 h]
    intro c hc
    rcases List.mem_append.mp hc with h2 | h2
    · exact htw c h2
    · have : c = x02 := by simpa using h2
      subst this
      simp [x02, x03]
  · rw [frame_unit_of_drop_x03 h]; exact htw

theorem frame_match_append (s : List Char) :
    (frame_match s).1 ++ (frame_match s).2 = s := by
  unfold frame_match
  simp only [List.append_assoc]
  rw [List.takeWhile_append_dropWhile, frame_unit_append, frame_unit_append]

theorem frame_match_fst_ne_nil {s : List Char} (h : s ≠ []) :
    (frame_match s).1 ≠ [] := by
  unfold frame_match
  rcases drop_frameContent_head s with h1 | ⟨r, h1⟩ | ⟨r, h1⟩
  · -- no marker in s at all: the first unit is all of s
    have htw : s.takeWhile frameContent = s := by
      have h3 := s.takeWhile_append_dropWhile frameContent
      rw [h1, List.append_nil] at h3
      exact h3
    have hu := frame_unit_of_drop_nil h1
    rw [htw] at hu
    have hnil : frame_unit ([] : List Char) = ([], []) := rfl
    simp only [hu, hnil, List.takeWhile_nil, List.append_nil]
    exact h
  · -- the first unit ends with a consumed \x02
    have hu := frame_unit_of_drop_x02 h1
    simp only [hu]
    simp
  · -- s starts, after possible content, with \x03
    have hu := frame_unit_of_drop_x03 h1
    cases h2 : s.takeWhile frameContent with
    | cons c s2 =>
      rw [h2] at hu
      simp only [hu]
      simp
    | nil =>
      -- the first unit is empty: s itself starts with \x03, which the
      -- trailing class consumes
      rw [h2] at hu
      have hs : s = x03 :: r := by
        have h3 := s.takeWhile_append_dropWhile frameContent
        rw [h2, h1] at h3
        simp at h3
        exact h3.symm
      simp only [hu]
      rw [← hs, hu]
      simp only [List.nil_append]
      rw [List.takeWhile_cons,
        if_pos (by decide : frameTailClass x03 = true)]
      simp

theorem frame_match_snd_lt {s : List Char} (h : s ≠ []) :
    (frame_match s).2.length < s.length := by
  have h1 := frame_match_append s
  have h2 := frame_match_fst_ne_nil h
  have h3 := congrArg List.length h1
  rw [List.length_append] at h3
  have h4 : 1 ≤ (frame_match s).1.length := by
    cases hm : (frame_match s).1 with
    | nil => exact absurd hm h2
    | cons a b => simp
  omega

theorem frameMatchesF_join : ∀ (f : Nat) (s : List Char), s.length ≤ f →
    joinAll (frameMatchesF f s) = s := by
  intro f
  induction f with
  | zero =>
    intro s hs
    have h0 : s = [] := List.eq_nil_of_length_eq_zero (Nat.le_zero.mp hs)
    subst h0; rfl
  | succ f ih =>
    intro s hs
    cases s with
    | nil => rfl
    | cons c s2 =>
      rw [frameMatchesF, joinAll]
      have hlt := frame_match_snd_lt (s := c :: s2) (by simp)
      have hr : (frame_match (c :: s2)).2.length ≤ f := by
        simp only [List.length_cons] at hlt hs
        omega
      rw [ih _ hr, frame_match_append]

/-- Every character of the frame-substituted text is a character of the
input interleaved with inserted `\x04` markers: the matches concatenate
back to the input. -/
theorem frame_matches_join (s : List Char) : joinAll (frame_matches s) = s :=
  frameMatchesF_join s.length s (Nat.le_refl _)

theorem frameMatchesF_ne_nil {f : Nat} {c : Char} {s : List Char} :
    frameMatchesF (f + 1) (c :: s) ≠ [] := by
  rw [frameMatchesF]
  simp

theorem joinAll_map_concat_filter (p : Char → Bool) (hp : p x04 = false)
    (L : List (List Char)) :
    (joinAll (L.map (fun m => m ++ [x04]))).filter p = (joinAll L).filter p := by
  induction L with
  | nil => rfl
  | cons m L ih =>
    simp only [List.map_cons, joinAll, List.filter_append, ih]
    simp [List.filter_cons, hp]

theorem countChar_joinAll_map_concat (L : List (List Char)) :
    countChar x04 (joinAll (L.map (fun m => m ++ [x04]))) =
      countChar x04 (joinAll L) + L.length := by
  induction L with
  | nil => rfl
  | cons m L ih =>
    simp only [List.map_cons, joinAll, countChar_append, ih, List.length_cons]
    have h1 : countChar x04 [x04] = 1 := rfl
    omega

/-- The frame substitution only inserts `\x04` markers. -/
theorem frame_sub_filter (p : Char → Bool) (hp : p x04 = false)
    (s : List Char) : (frame_sub s).filter p = s.filter p := by
  cases s with
  | nil => simp [frame_sub, List.filter_cons, hp]
  | cons c s2 =>
    unfold frame_sub
    rw [joinAll_map_concat_filter p hp, frame_matches_join]

/-- The frame substitution always appends a final `\x04`: the last
match of the pattern extends to the end of the input, and on empty
input the empty match itself is replaced. -/
theorem frame_sub_ends_x04 (s : List Char) :
    ∃ t, frame_sub s = t ++ [x04] := by
  cases s with
  | nil => exact ⟨[], rfl⟩
  | cons c s2 =>
    unfold frame_sub
    have h1 : frame_matches (c :: s2) ≠ [] := frameMatchesF_ne_nil
    clear h1
    generalize hL : frame_matches (c :: s2) = L
    have hL2 : L ≠ [] := by rw [← hL]; exact frameMatchesF_ne_nil
    clear hL
    induction L with
    | nil => exact absurd rfl hL2
    | cons m L ih =>
      cases L with
      | nil => exact ⟨m, by simp [joinAll]⟩
      | cons m2 L2 =>
        rcases ih (by simp) with ⟨t, ht⟩
        refine ⟨m ++ [x04] ++ t, ?_⟩
        simp only [List.map_cons, joinAll] at ht ⊢
        rw [ht]
        simp

theorem countChar_frame_sub {s : List Char} (h : s ≠ []) :
    countChar x04 (frame_sub s) = (frame_matches s).length + countChar x04 s := by
  cases s with
  | nil => exact absurd rfl h
  | cons c s2 =>
    unfold frame_sub
    rw [countChar_joinAll_map_concat, frame_matches_join]
    omega

/-! ### Lemmas on `joinWith` and `mark_sentences` -/

theorem mem_joinWith (sep : Char) : ∀ (L : List (List Char)) {c : Char},
    c ∈ joinWith sep L → c = sep ∨ ∃ a ∈ L, c ∈ a := by
  intro L
  induction L with
  | nil => intro c hc; cases hc
  | cons a L ih =>
    intro c hc
    cases L with
    | nil =>
      rw [joinWith] at hc
      exact Or.inr ⟨a, by simp, hc⟩
    | cons b L2 =>
      rw [joinWith] at hc
      rcases List.mem_append.mp hc with h2 | h2
      · exact Or.inr ⟨a, by simp, h2⟩
      · rcases List.mem_cons.mp h2 with rfl | h3
        · exact Or.inl rfl
        · rcases ih h3 with h4 | ⟨e, he, hce⟩
          · exact Or.inl h4
          · exact Or.inr ⟨e, by simp [he], hce⟩

theorem filter_joinWith (p : Char → Bool) (sep : Char) (hp : p sep = false) :
    ∀ L : List (List Char),
      (joinWith sep L).filter p = joinAll (L.map (fun a => a.filter p)) := by
  intro L
  induction L with
  | nil => rfl
  | cons a L ih =>
    cases L with
    | nil => simp [joinWith, joinAll]
    | cons b L2 =>
      rw [joinWith]
      simp only [List.filter_append, List.filter_cons, hp, Bool.false_eq_true,
        if_false]
      rw [ih]
      simp [List.map_cons, joinAll]

theorem countChar_joinWith (sep : Char) : ∀ (L : List (List Char)),
    L ≠ [] → (∀ a ∈ L, countChar sep a = 0) →
    countChar sep (joinWith sep L) = L.length - 1 := by
  intro L
  induction L with
  | nil => intro h _; exact absurd rfl h
  | cons a L ih =>
    intro _ hall
    cases L with
    | nil =>
      rw [joinWith]
      simp [hall a (by simp)]
    | cons b L2 =>
      rw [joinWith, countChar_append, countChar_cons]
      rw [hall a (by simp), ih (by simp) (fun e he => hall e (by simp [he]))]
      rw [if_pos (by simp : (sep == sep) = true)]
      simp only [List.length_cons]
      omega

theorem mem_extract {text : List Char} {sp : Nat × Nat} {c : Char}
    (h : c ∈ extract text sp) : c ∈ text := by
  unfold extract at h
  exact List.mem_of_mem_drop (List.mem_of_mem_take h)

theorem notMarker_x02 : notMarker x02 = false := by decide

theorem notMarker_x03 : notMarker x03 = false := by decide

theorem notMarker_x04 : notMarker x04 = false := by decide

/-! ### The pipeline master lemma: the concatenation of the returned
frames is exactly the sentence-marked text with every marker byte
removed. -/

theorem joinAll_tokenize_new_aux (text : List Char) (spans : List (Nat × Nat)) :
    joinAll (tokenize_new text spans) =
      (mark_sentences text spans).filter notMarker := by
  unfold tokenize_new final_text remove_markers
  rw [joinAll_splitOnChar]
  rw [List.filter_filter]
  have hcongr : ∀ c : Char,
      ((!(c == x04)) && !(c == x02 || c == x03)) = notMarker c := by
    intro c
    unfold notMarker
    cases h2 : (c == x02) <;> cases h3 : (c == x03) <;> cases h4 : (c == x04) <;> simp [h2, h3, h4]
  rw [List.filter_congr (fun c _ => hcongr c)]
  rw [frame_sub_filter notMarker notMarker_x04]
  rw [paragraph_sub_filter notMarker notMarker_x03]

/-! ### Well-formed sentences and the frame count -/

theorem good_sentence_unfold {s : List Char} (h : good_sentence s = true) :
    (∀ c ∈ s, notMarker c = true ∧ c ≠ '\n') ∧ ∃ c ∈ s, isWsChar c = false := by
  unfold good_sentence at h
  rcases Bool.and_eq_true _ _ |>.mp h with ⟨h1, h2⟩
  rw [List.all_eq_true] at h1
  rw [List.any_eq_true] at h2
  constructor
  · intro c hc
    rcases Bool.and_eq_true _ _ |>.mp (h1 c hc) with ⟨h3, h4⟩
    exact ⟨h3, by simpa using h4⟩
  · rcases h2 with ⟨c, hc, h3⟩
    exact ⟨c, hc, by simpa using h3⟩

theorem notMarker_spread {c : Char} (h : notMarker c = true) :
    c ≠ x02 ∧ c ≠ x03 ∧ c ≠ x04 := by
  unfold notMarker at h
  simp only [Bool.not_eq_true', Bool.or_eq_false_iff, beq_eq_false_iff_ne] at h
  exact ⟨h.1.1, h.1.2, h.2⟩

theorem good_all_frameContent {s : List Char} (h : good_sentence s = true) :
    ∀ c ∈ s, frameContent c = true := by
  intro c hc
  rcases notMarker_spread ((good_sentence_unfold h).1 c hc).1 with ⟨h1, h2, -⟩
  unfold frameContent
  simp [h1, h2]

theorem good_ne_nil {s : List Char} (h : good_sentence s = true) : s ≠ [] := by
  rcases (good_sentence_unfold h).2 with ⟨c, hc, -⟩
  intro h2
  subst h2
  cases hc

theorem good_exists_tail_false {s : List Char} (h : good_sentence s = true) :
    ∃ c ∈ s, frameTailClass c = false := by
  rcases (good_sentence_unfold h).2 with ⟨c, hc, hws⟩
  rcases notMarker_spread ((good_sentence_unfold h).1 c hc).1 with ⟨-, h3, -⟩
  refine ⟨c, hc, ?_⟩
  unfold frameTailClass
  simp [hws, h3]

theorem good_dropWhile_tail {s : List Char} (h : good_sentence s = true) :
    good_sentence (s.dropWhile frameTailClass) = true := by
  rcases dropWhile_eq_cons_of_exists frameTailClass s (good_exists_tail_false h)
    with ⟨c, r, hd, hc⟩
  unfold good_sentence
  rw [Bool.and_eq_true, List.all_eq_true, List.any_eq_true]
  constructor
  · intro e he
    have he2 : e ∈ s := mem_of_mem_dropWhile frameTailClass he
    rcases (good_sentence_unfold h).1 e he2 with ⟨h1, h2⟩
    simp [h1, h2]
  · refine ⟨c, by simp [hd], ?_⟩
    unfold frameTailClass at hc
    rcases Bool.or_eq_false_iff.mp hc with ⟨h1, -⟩
    simp [h1]

theorem good_no_nl {s : List Char} (h : good_sentence s = true) : '\n' ∉ s := by
  intro h2
  exact ((good_sentence_unfold h).1 '\n' h2).2 rfl

theorem frame_unit_all_content {s : List Char}
    (h : ∀ c ∈ s, frameContent c = true) : frame_unit s = (s, []) := by
  have h1 := all_takeWhile_eq_self frameContent s h
  rw [frame_unit_of_drop_nil h1.2, h1.1]

theorem frame_match_all_content {s : List Char}
    (h : ∀ c ∈ s, frameContent c = true) : frame_match s = (s, []) := by
  unfold frame_match
  have hu := frame_unit_all_content h
  have hnil : frame_unit ([] : List Char) = ([], []) := rfl
  simp [hu, hnil]

theorem frame_unit_append_x02 {a : List Char}
    (h : ∀ c ∈ a, frameContent c = true) (w : List Char) :
    frame_unit (a ++ x02 :: w) = (a ++ [x02], w) := by
  have hfc : frameContent x02 = false := by decide
  have htw : (a ++ x02 :: w).takeWhile frameContent = a := by
    rw [takeWhile_append_all frameContent a (x02 :: w) h]
    rw [List.takeWhile_cons, hfc]
    simp
  have hdw : (a ++ x02 :: w).dropWhile frameContent = x02 :: w := by
    rw [dropWhile_append_all frameContent a (x02 :: w) h]
    rw [List.dropWhile_cons, hfc]
    simp
  rw [frame_unit_of_drop_x02 hdw, htw]

/-- The frame pattern applied to a sentence-marked text of two or more
well-formed sentences: the match takes the first two sentences with
their markers plus the whitespace the third sentence starts with, and
the rest is the third sentence trimmed of that whitespace followed by
the remaining marked sentences. -/
theorem frame_match_two_plus {s1 s2 : List Char} {rest : List (List Char)}
    (h1 : ∀ c ∈ s1, frameContent c = true)
    (h2 : ∀ c ∈ s2, frameContent c = true) :
    (rest = [] → frame_match (joinWith x02 (s1 :: s2 :: rest)) =
      ((s1 ++ [x02]) ++ s2 ++ [], [])) ∧
    (∀ s3 rest2, rest = s3 :: rest2 → (∃ c ∈ s3, frameTailClass c = false) →
      frame_match (joinWith x02 (s1 :: s2 :: rest)) =
        ((s1 ++ [x02]) ++ (s2 ++ [x02]) ++
            (joinWith x02 rest).takeWhile frameTailClass,
          joinWith x02 (s3.dropWhile frameTailClass :: rest2))) := by
  constructor
  · intro hrest
    subst hrest
    have hj : joinWith x02 [s1, s2] = s1 ++ x02 :: s2 := rfl
    rw [hj]
    unfold frame_match
    rw [frame_unit_append_x02 h1 s2]
    simp only []
    rw [frame_unit_all_content h2]
    simp
  · intro s3 rest2 hrest hex
    subst hrest
    have hj : joinWith x02 (s1 :: s2 :: s3 :: rest2) =
        s1 ++ x02 :: joinWith x02 (s2 :: s3 :: rest2) := rfl
    have hj2 : joinWith x02 (s2 :: s3 :: rest2) =
        s2 ++ x02 :: joinWith x02 (s3 :: rest2) := rfl
    rw [hj]
    unfold frame_match
    rw [frame_unit_append_x02 h1]
    simp only []
    rw [hj2, frame_unit_append_x02 h2]
    simp only []
    congr 1
    · -- the rest after dropping the trailing class
      cases rest2 with
      | nil =>
        have hj3 : joinWith x02 [s3] = s3 := rfl
        rw [hj3]
        have hj4 : joinWith x02 [s3.dropWhile frameTailClass] =
            s3.dropWhile frameTailClass := rfl
        rw [hj4]
      | cons s4 L =>
        have hj3 : joinWith x02 (s3 :: s4 :: L) =
            s3 ++ x02 :: joinWith x02 (s4 :: L) := rfl
        have hj4 : joinWith x02 (s3.dropWhile frameTailClass :: s4 :: L) =
            s3.dropWhile frameTailClass ++ x02 :: joinWith x02 (s4 :: L) := rfl
        rw [hj3, hj4]
        exact dropWhile_append_stop frameTailClass s3 _ hex

/-- The number of frame-pattern matches over a marked text of `k`
well-formed sentences is the round-up of `k / 2`: sentences are grouped
in pairs and a final odd sentence still yields a match of its own. -/
theorem frameMatchesF_count : ∀ (f : Nat) (ss : List (List Char)),
    (joinWith x02 ss).length ≤ f → ss ≠ [] →
    (∀ s ∈ ss, good_sentence s = true) →
    (frameMatchesF f (joinWith x02 ss)).length = (ss.length + 1) / 2 := by
  intro f
  induction f with
  | zero =>
    intro ss hlen hne hgood
    exfalso
    rcases ss with _ | ⟨s1, rest⟩
    · exact hne rfl
    rcases rest with _ | ⟨s2, rest2⟩
    · have h1 : joinWith x02 [s1] = s1 := rfl
      rw [h1] at hlen
      have h2 := good_ne_nil (hgood s1 (by simp))
      cases s1 with
      | nil => exact h2 rfl
      | cons c t => simp at hlen
    · have h1 : joinWith x02 (s1 :: s2 :: rest2) =
          s1 ++ x02 :: joinWith x02 (s2 :: rest2) := rfl
      rw [h1] at hlen
      simp [List.length_append] at hlen
  | succ f ih =>
    intro ss hlen hne hgood
    rcases ss with _ | ⟨s1, rest⟩
    · exact absurd rfl hne
    rcases rest with _ | ⟨s2, rest2⟩
    · -- a single sentence: one match covering it via the end-of-input
      -- terminator
      have h1 : joinWith x02 [s1] = s1 := rfl
      rw [h1] at hlen ⊢
      have hm := frame_match_all_content
        (good_all_frameContent (hgood s1 (by simp)))
      have hne1 := good_ne_nil (hgood s1 (by simp))
      cases hs1 : s1 with
      | nil => exact absurd hs1 hne1
      | cons c t =>
        subst hs1
        rw [frameMatchesF, hm]
        simp [frameMatchesF]
    · have hg1 := hgood s1 (by simp)
      have hg2 := hgood s2 (by simp)
      have hc1 := good_all_frameContent hg1
      have hc2 := good_all_frameContent hg2
      have hne1 := good_ne_nil hg1
      rcases rest2 with _ | ⟨s3, rest3⟩
      · -- exactly two sentences: one match covering both
        have hm := (frame_match_two_plus hc1 hc2).1 rfl
        cases hs1 : s1 with
        | nil => exact absurd hs1 hne1
        | cons c t =>
          subst hs1
          have hj : joinWith x02 [c :: t, s2] =
              c :: (t ++ x02 :: s2) := rfl
          rw [hj] at hm ⊢
          rw [frameMatchesF, hm]
          simp [frameMatchesF]
      · -- three or more sentences: one match for the first two, then
        -- the recursion on the rest
        have hg3 := hgood s3 (by simp)
        have hm := (frame_match_two_plus hc1 hc2).2 s3 rest3 rfl
          (good_exists_tail_false hg3)
        cases hs1 : s1 with
        | nil => exact absurd hs1 hne1
        | cons c t =>
          subst hs1
          have hj : joinWith x02 ((c :: t) :: s2 :: s3 :: rest3) =
              c :: (t ++ x02 :: joinWith x02 (s2 :: s3 :: rest3)) := rfl
          rw [hj] at hm hlen ⊢
          have hlt := frame_match_snd_lt
            (s := c :: (t ++ x02 :: joinWith x02 (s2 :: s3 :: rest3)))
            (by simp)
          rw [hm] at hlt
          simp only [List.length_cons] at hlt hlen
          have hrlen :
              (joinWith x02 (s3.dropWhile frameTailClass :: rest3)).length ≤ f := by
            omega
          rw [frameMatchesF, hm]
          simp only [List.length_cons]
          rw [ih (s3.dropWhile frameTailClass :: rest3) hrlen (by simp) ?hgood2]
          case hgood2 =>
            intro e he
            rcases List.mem_cons.mp he with rfl | he2
            · exact good_dropWhile_tail hg3
            · exact hgood e (by simp [he2])
          simp only [List.length_cons]
          omega

/-- The frame-match count over well-formed detector spans, stated on
`tokenize_new` itself: the split of the final text has one element per
match plus the trailing empty piece. -/
theorem tokenize_new_length_of_good (text : List Char)
    (spans : List (Nat × Nat)) (hne : spans ≠ [])
    (hgood : ∀ sp ∈ spans, good_sentence (extract text sp) = true) :
    (tokenize_new text spans).length = (spans.length + 1) / 2 + 1 := by
  have hexts : spans.map (extract text) ≠ [] := by
    intro h
    exact hne (List.map_eq_nil_iff.mp h)
  have hgood2 : ∀ s ∈ spans.map (extract text), good_sentence s = true := by
    intro s hs
    rcases List.mem_map.mp hs with ⟨sp, hsp, rfl⟩
    exact hgood sp hsp
  set marked := mark_sentences text spans with hmarked
  have hmark_join : marked = joinWith x02 (spans.map (extract text)) := rfl
  -- no newline anywhere in the marked text
  have hnonl : '\n' ∉ marked := by
    intro h
    rcases mem_joinWith x02 _ h with h2 | ⟨a, ha, hca⟩
    · exact absurd h2 (by decide)
    · exact good_no_nl (hgood2 a ha) hca
  have hpara : paragraph_sub marked = marked := paragraph_sub_id_of_no_nl hnonl
  -- the marked text is non-empty
  have hmne : marked ≠ [] := by
    rcases hL : spans.map (extract text) with _ | ⟨e, L⟩
    · exact absurd hL hexts
    have hge := hgood2 e (by rw [hL]; simp)
    rcases L with _ | ⟨e2, L2⟩
    · rw [hmark_join, hL]
      have : joinWith x02 [e] = e := rfl
      rw [this]
      exact good_ne_nil hge
    · rw [hmark_join, hL]
      have : joinWith x02 (e :: e2 :: L2) = e ++ x02 :: joinWith x02 (e2 :: L2) := rfl
      rw [this]
      simp
  -- no \x04 anywhere in the marked text
  have hno4 : countChar x04 marked = 0 := by
    apply countChar_eq_zero
    intro d hd
    rcases mem_joinWith x02 _ hd with h2 | ⟨a, ha, hca⟩
    · subst h2; decide
    · rcases notMarker_spread ((good_sentence_unfold (hgood2 a ha)).1 d hca).1
        with ⟨-, -, h4⟩
      simpa using h4
  -- count the matches
  have hcount : (frame_matches marked).length = (spans.length + 1) / 2 := by
    rw [hmark_join]
    unfold frame_matches
    rw [frameMatchesF_count _ _ (Nat.le_refl _) hexts hgood2]
    simp
  unfold tokenize_new final_text
  rw [hpara, length_splitOnChar]
  have hc4 : countChar x04 (remove_markers (frame_sub marked)) =
      countChar x04 (frame_sub marked) := by
    unfold remove_markers countChar
    rw [List.filter_filter]
    apply congrArg
    apply List.filter_congr
    intro c _
    cases h2 : (c == x04) with
    | true =>
      have : c = x04 := by simpa using h2
      subst this
      decide
    | false => simp [h2]
  rw [hc4, countChar_frame_sub hmne, hno4, hcount]

/-! ### Decomposition of a frame match around paragraph markers -/

theorem frame_match_decomp (s : List Char) :
    ∃ u t, (frame_match s).1 = u ++ t ∧ (∀ c ∈ u, c ≠ x03) ∧
      (∀ c ∈ t, c = x03 ∨ isWsChar c = true) := by
  refine ⟨(frame_unit s).1 ++ (frame_unit (frame_unit s).2).1,
    (frame_unit (frame_unit s).2).2.takeWhile frameTailClass, ?_, ?_, ?_⟩
  · unfold frame_match
    simp [List.append_assoc]
  · intro c hc
    rcases List.mem_append.mp hc with h | h
    · exact frame_unit_no_x03 s c h
    · exact frame_unit_no_x03 _ c h
  · intro c hc
    have h2 := List.mem_takeWhile_imp hc
    unfold frameTailClass at h2
    rcases Bool.or_eq_true _ _ |>.mp h2 with h | h
    · exact Or.inr h
    · exact Or.inl (by simpa using h)

theorem frameMatchesF_mem_decomp : ∀ (f : Nat) (s m : List Char),
    m ∈ frameMatchesF f s →
    ∃ u t, m = u ++ t ∧ (∀ c ∈ u, c ≠ x03) ∧
      (∀ c ∈ t, c = x03 ∨ isWsChar c = true) := by
  intro f
  induction f with
  | zero =>
    intro s m hm
    cases s <;> cases hm
  | succ f ih =>
    intro s m hm
    cases s with
    | nil => cases hm
    | cons c s2 =>
      rw [frameMatchesF] at hm
      rcases List.mem_cons.mp hm with rfl | hm2
      · exact frame_match_decomp (c :: s2)
      · exact ih _ m hm2

/-- C1: every match of the frame pattern splits into a part free of the
paragraph marker `\x03` followed by a trailing part made of `\x03` and
whitespace only: the lookahead alternative of the frame pattern stops
the sentence content of a frame at a paragraph marker, so a frame never
carries text from two different paragraphs. -/
theorem frame_never_spans_paragraph (s m : List Char)
    (hm : m ∈ frame_matches s) :
    ∃ u t, m = u ++ t ∧ (∀ c ∈ u, c ≠ x03) ∧
      (∀ c ∈ t, c = x03 ∨ isWsChar c = true) :=
  frameMatchesF_mem_decomp s.length s m hm

theorem frame_never_spans_paragraph_witness :
    ("x\x02y\x03 ".toList ∈ frame_matches "x\x02y\x03 z".toList) ∧
    ∃ u t, "x\x02y\x03 ".toList = u ++ t ∧ (∀ c ∈ u, c ≠ x03) ∧
      (∀ c ∈ t, c = x03 ∨ isWsChar c = true) :=
  ⟨by decide, frame_never_spans_paragraph "x\x02y\x03 z".toList
    "x\x02y\x03 ".toList (by decide)⟩

/-- C9: the assertion of `tokenize_new` always holds, on every input —
including input that already contains raw `\x02` or `\x03` bytes —
because the final substitution deletes every occurrence of the two
bytes; consequently marker bytes of the original input are silently
removed from the output frames instead of being rejected. -/
theorem tokenize_new_assert_always_holds (text : List Char)
    (spans : List (Nat × Nat)) :
    (final_text text spans).all (fun c => !(c == x02 || c == x03)) = true ∧
    (tokenize_new text spans).all
      (fun m => m.all (fun c => !(c == x02 || c == x03))) = true := by
  have h1 : ∀ c ∈ final_text text spans, (!(c == x02 || c == x03)) = true := by
    intro c hc
    unfold final_text remove_markers at hc
    exact (List.mem_filter.mp hc).2
  constructor
  · rw [List.all_eq_true]
    exact h1
  · rw [List.all_eq_true]
    intro m hm
    rw [List.all_eq_true]
    intro c hc
    exact h1 c (mem_of_mem_splitOnChar x04 _ m hm c hc)

theorem tokenize_new_assert_always_holds_witness :
    (final_text "Hi there.".toList [(0, 9)]).all
      (fun c => !(c == x02 || c == x03)) = true ∧
    (tokenize_new "Hi there.".toList [(0, 9)]).all
      (fun m => m.all (fun c => !(c == x02 || c == x03))) = true :=
  tokenize_new_assert_always_holds "Hi there.".toList [(0, 9)]

/-- C10: the frame substitution appends a `\x04` after the final match
(which always extends to the end of input; on the empty input the empty
match itself is substituted), so the split on `\x04` always ends with
an empty element and the returned frame count always exceeds the number
of non-empty frames by at least one. -/
theorem tokenize_new_trailing_empty_frame (text : List Char)
    (spans : List (Nat × Nat)) :
    (tokenize_new text spans).getLast? = some [] ∧
    ((tokenize_new text spans).filter (fun m => !m.isEmpty)).length <
      (tokenize_new text spans).length := by
  rcases frame_sub_ends_x04 (paragraph_sub (mark_sentences text spans))
    with ⟨t, ht⟩
  have hfin : final_text text spans = remove_markers t ++ [x04] := by
    unfold final_text
    rw [ht]
    unfold remove_markers
    rw [List.filter_append]
    congr 1
  unfold tokenize_new
  rw [hfin, splitOnChar_concat]
  constructor
  · exact List.getLast?_concat _
  · rw [List.filter_append]
    have h2 : List.filter (fun m => !m.isEmpty) [([] : List Char)] = [] := rfl
    rw [h2, List.append_nil, List.length_append]
    have h3 := List.length_filter_le (fun m => !m.isEmpty)
      (splitOnChar x04 (remove_markers t))
    simp only [List.length_cons, List.length_nil]
    omega

/-- C4 counterexample: input carrying a raw `\x02` byte is not rejected
and not left intact — `tokenize_new` treats the byte as a sentence
marker, merges the two halves into one frame and deletes the byte, so
the tokenization proceeds and silently alters the text. -/
theorem tokenize_new_marker_not_rejected :
    tokenize_new "ab\x02cd".toList [(0, 6)] = ["abcd".toList, []] ∧
    joinAll (tokenize_new "ab\x02cd".toList [(0, 6)]) ≠ "ab\x02cd".toList := by
  decide

/-- C4 amended: `tokenize_new` has no rejection path at all — for every
input and every span list it returns a frame list whose concatenation
is the sentence-marked text with every reserved marker byte deleted;
marker bytes present in the original input are silently dropped. -/
theorem tokenize_new_never_rejects (text : List Char)
    (spans : List (Nat × Nat)) :
    joinAll (tokenize_new text spans) =
      (mark_sentences text spans).filter notMarker :=
  joinAll_tokenize_new_aux text spans

/-- C2 counterexample: with the detector spans punkt produces for
`"A. B."` — which exclude the inter-sentence space — re-joining the
output of `tokenize_new` loses that space: the sentence-marking join
drops every character between detected spans. -/
theorem tokenize_new_roundtrip_fails :
    joinAll (tokenize_new "A. B.".toList [(0, 2), (3, 5)]) ≠
      "A. B.".toList := by
  decide

/-- C2 amended: for marker-free input text, re-joining the frames of
`tokenize_new` reproduces exactly the concatenation of the detected
sentence spans — not the original text: characters between spans are
dropped by the marking join. -/
theorem tokenize_new_rejoins_spans (text : List Char)
    (spans : List (Nat × Nat)) (h : ∀ c ∈ text, notMarker c = true) :
    joinAll (tokenize_new text spans) =
      joinAll (spans.map (extract text)) := by
  rw [joinAll_tokenize_new_aux]
  unfold mark_sentences
  rw [filter_joinWith notMarker x02 notMarker_x02]
  apply congrArg joinAll
  rw [List.map_map]
  apply List.map_congr_left
  intro sp _
  apply List.filter_eq_self.mpr
  intro c hc
  exact h c (mem_extract hc)

theorem tokenize_new_rejoins_spans_witness :
    (∀ c ∈ "A. B.".toList, notMarker c = true) ∧
    joinAll (tokenize_new "A. B.".toList [(0, 2), (3, 5)]) =
      joinAll ([(0, 2), (3, 5)].map (extract "A. B.".toList)) :=
  ⟨by decide, tokenize_new_rejoins_spans "A. B.".toList [(0, 2), (3, 5)]
    (by decide)⟩

/-- The scenario document of the specification. -/
def scenario_text : List Char :=
  "The cat sat. The dog ran. Birds fly high in the sky.".toList

/-- Modelled from the spec: the sentence spans the external punkt
detector returns on the scenario document — its three sentences, per
the decomposition the specification scenario itself gives; punkt spans
exclude the single spaces between sentences. -/
def scenario_spans : List (Nat × Nat) := [(0, 12), (13, 25), (26, 52)]

/-- C3 counterexample: with a frame size of 2 sentences the scenario
document does not produce the two frames the claim lists. -/
theorem scenario_not_two_frames :
    tokenize_new scenario_text scenario_spans ≠
      ["The cat sat. The dog ran.".toList,
        "Birds fly high in the sky.".toList] := by
  decide

/-- C3 amended: the scenario document produces a three-element frame
list: the first frame lost the space between its two sentences (the
marking join drops characters between spans and the marker is then
deleted), and a trailing empty element follows the final frame marker. -/
theorem scenario_three_elements :
    tokenize_new scenario_text scenario_spans =
      ["The cat sat.The dog ran.".toList,
        "Birds fly high in the sky.".toList, []] := by
  decide

/-- C5: for well-formed detector spans whose count is odd — not a
multiple of the frame size 2 — the final partial frame is still
emitted: the frame list has `spans.length / 2 + 1` matches (the last
one holding the single leftover sentence) plus the trailing empty split
element. -/
theorem partial_final_frame_emitted (text : List Char)
    (spans : List (Nat × Nat)) (hne : spans ≠ [])
    (hgood : ∀ sp ∈ spans, good_sentence (extract text sp) = true)
    (hodd : spans.length % 2 = 1) :
    (tokenize_new text spans).length = spans.length / 2 + 2 := by
  rw [tokenize_new_length_of_good text spans hne hgood]
  omega

def c5_text : List Char := "Aa. Bb. Cc.".toList

def c5_spans : List (Nat × Nat) := [(0, 3), (4, 7), (8, 11)]

theorem partial_final_frame_emitted_witness :
    (c5_spans ≠ []) ∧
    (∀ sp ∈ c5_spans, good_sentence (extract c5_text sp) = true) ∧
    (c5_spans.length % 2 = 1) ∧
    (tokenize_new c5_text c5_spans).length = c5_spans.length / 2 + 2 :=
  ⟨by decide, by decide, by decide,
    partial_final_frame_emitted c5_text c5_spans (by decide) (by decide)
      (by decide)⟩

/-- C6 counterexample: zero-length detector spans are not skipped — a
run of them inserts sentence markers, shifts the frame grouping and
yields a degenerate empty frame in the middle of the output (the second
element below), besides the trailing empty element. -/
theorem zero_spans_counterexample :
    tokenize_new "ab".toList [(0, 1), (1, 1), (1, 1), (1, 1), (1, 1), (1, 2)] =
      [['a'], [], ['b'], []] ∧
    [] ∈ (tokenize_new "ab".toList
      [(0, 1), (1, 1), (1, 1), (1, 1), (1, 1), (1, 2)]).dropLast := by
  decide

/-- C6 amended: the sentence-marking join treats every span alike —
each span, zero-length included, contributes one `\x02` separator, so
`k` spans always yield `k - 1` sentence markers, and runs of
zero-length spans can produce degenerate empty frames. -/
theorem zero_spans_contribute_markers (text : List Char)
    (spans : List (Nat × Nat)) (hne : spans ≠ []) (h2 : x02 ∉ text) :
    countChar x02 (mark_sentences text spans) = spans.length - 1 := by
  unfold mark_sentences
  rw [countChar_joinWith x02 _ (by
      intro h
      exact hne (List.map_eq_nil_iff.mp h)) ?hall]
  · simp
  case hall =>
    intro a ha
    rcases List.mem_map.mp ha with ⟨sp, -, rfl⟩
    apply countChar_eq_zero
    intro d hd
    have hdt := mem_extract hd
    cases hdx : (d == x02) with
    | false => rfl
    | true =>
      have : d = x02 := by simpa using hdx
      subst this
      exact absurd hdt h2

theorem zero_spans_contribute_markers_witness :
    (([(0, 1), (1, 1), (1, 2)] : List (Nat × Nat)) ≠ []) ∧
    (x02 ∉ "ab".toList) ∧
    countChar x02 (mark_sentences "ab".toList [(0, 1), (1, 1), (1, 2)]) =
      ([(0, 1), (1, 1), (1, 2)] : List (Nat × Nat)).length - 1 :=
  ⟨by decide, by decide,
    zero_spans_contribute_markers "ab".toList [(0, 1), (1, 1), (1, 2)]
      (by decide) (by decide)⟩

/-- C7: with at least one occurrence and a document frequency no larger
than the number of documents, the inverse document frequency is
non-negative: the floor handles `df = total` and otherwise the
logarithm has an argument of at least one. -/
theorem idf_nonneg (total df : Nat) (h1 : 1 ≤ df) (h2 : df ≤ total) :
    0 ≤ idf total df := by
  unfold idf
  split
  · exact le_refl 0
  · apply Real.log_nonneg
    have hdf : (0 : Real) < (df : Real) := by
      exact_mod_cast Nat.lt_of_lt_of_le Nat.zero_lt_one h1
    rw [one_le_div hdf]
    exact_mod_cast h2

theorem idf_nonneg_witness : 1 ≤ 2 ∧ 2 ≤ 5 ∧ 0 ≤ idf 5 2 :=
  ⟨by decide, by decide, idf_nonneg 5 2 (by decide) (by decide)⟩

theorem pair_frames_length : ∀ ss : List (List Char),
    (pair_frames ss).length = (ss.length + 1) / 2
  | [] => by simp [pair_frames]
  | [s] => by simp [pair_frames]
  | s1 :: s2 :: rest => by
    rw [pair_frames]
    simp only [List.length_cons, pair_frames_length rest]
    omega

/-- C8 counterexample: on a one-sentence, one-paragraph document the
naive design yields one frame while the frame list of `tokenize_new`
has two elements (the frame plus the trailing empty split element); the
notebook itself records 6150 frames for the old design and 5079 for the
new one on the same input. -/
theorem old_new_frame_count_differs :
    (tokenize_old [["Hi.".toList]]).length ≠
      (tokenize_new "Hi.".toList [(0, 3)]).length := by
  decide

/-- C8 amended: the two designs are not extensionally equivalent in
frame count; for a single-paragraph document with well-formed detector
spans, the frame list of `tokenize_new` is exactly one element longer
than the frame list of `tokenize_old` (its trailing empty element). -/
theorem tokenize_new_count_exceeds_old (text : List Char)
    (spans : List (Nat × Nat)) (hne : spans ≠ [])
    (hgood : ∀ sp ∈ spans, good_sentence (extract text sp) = true) :
    (tokenize_new text spans).length =
      (tokenize_old [spans.map (extract text)]).length + 1 := by
  rw [tokenize_new_length_of_good text spans hne hgood]
  unfold tokenize_old
  simp only [List.map_cons, List.map_nil, joinAll, List.append_nil]
  rw [pair_frames_length]
  simp

def c8_text : List Char := "Aa. Bb.".toList

def c8_spans : List (Nat × Nat) := [(0, 3), (4, 7)]

theorem tokenize_new_count_exceeds_old_witness :
    (c8_spans ≠ []) ∧
    (∀ sp ∈ c8_spans, good_sentence (extract c8_text sp) = true) ∧
    (tokenize_new c8_text c8_spans).length =
      (tokenize_old [c8_spans.map (extract c8_text)]).length + 1 :=
  ⟨by decide, by decide,
    tokenize_new_count_exceeds_old c8_text c8_spans (by decide) (by decide)⟩

end Caterpillar
